import Mathlib

/-!
Shallow embedding of the addr2line_ips_android_breakpad repository
(crates addr2line_breakpad and ips_breakpad).

Strings are modelled as `List Char`; Rust `u64` values as `Nat` with an
explicit `% 2 ^ 64` at the one place the source performs `u64` addition
that can overflow (`RangeMap::retrieve_range`); `i64` values as `Int`
with the range checks of `i64::from_str_radix`. Fallible code (Rust
`unwrap` panics) is modelled with `Option`.
-/

namespace Breakpad

/-- Character data of a string literal. -/
def chars (s : String) : List Char := s.data

/-- Model of Rust `str::starts_with` on character lists: `begins p s`
is true when `p` is an initial segment of `s`. -/
def begins : List Char → List Char → Bool
  | [], _ => true
  | _ :: _, [] => false
  | a :: p, b :: s => a == b && begins p s

/-- ASCII whitespace recognised by `str::trim` and the regex class.
(The source accepts full Unicode whitespace; every input the claims
touch is ASCII.) -/
def isWs (c : Char) : Bool :=
  c == ' ' || c == '\t' || c == '\n' || c == '\x0b' || c == '\x0c' || c == '\r'

/-- Model of Rust `str::trim`: strip whitespace at both ends. -/
def trim (s : List Char) : List Char :=
  ((s.dropWhile isWs).reverse.dropWhile isWs).reverse

/-- `u64` wrap-around, used where the source adds two `u64` values. -/
def wrap64 (n : Nat) : Nat := n % 18446744073709551616

/-- Numeric value of one digit character, `99` for non-digits
(mirrors the digit table of `from_str_radix`). -/
def digitVal (c : Char) : Nat :=
  if '0' ≤ c ∧ c ≤ '9' then c.toNat - 48
  else if 'a' ≤ c ∧ c ≤ 'z' then c.toNat - 87
  else if 'A' ≤ c ∧ c ≤ 'Z' then c.toNat - 55
  else 99

def isDigitRadix (radix : Nat) (c : Char) : Bool := digitVal c < radix

def digitsToNat (radix : Nat) (s : List Char) : Nat :=
  s.foldl (fun acc c => acc * radix + digitVal c) 0

/-- Model of `u64::from_str_radix` (also `str::parse::<u64>` at radix 10):
optional leading plus sign, at least one digit of the radix, value must
fit in a `u64`. -/
def parseU64 (radix : Nat) (s : List Char) : Option Nat :=
  let t := match s with
    | '+' :: rest => rest
    | rest => rest
  if t ≠ [] ∧ t.all (isDigitRadix radix) ∧ digitsToNat radix t < 2 ^ 64 then
    some (digitsToNat radix t)
  else none

/-- Model of `i64::from_str_radix`: optional sign, at least one digit,
value in the `i64` range. -/
def parseI64 (radix : Nat) (s : List Char) : Option Int :=
  match s with
  | '-' :: rest =>
    if rest ≠ [] ∧ rest.all (isDigitRadix radix) ∧ digitsToNat radix rest ≤ 2 ^ 63 then
      some (-(digitsToNat radix rest : Int))
    else none
  | '+' :: rest =>
    if rest ≠ [] ∧ rest.all (isDigitRadix radix) ∧ digitsToNat radix rest < 2 ^ 63 then
      some ((digitsToNat radix rest : Int))
    else none
  | rest =>
    if rest ≠ [] ∧ rest.all (isDigitRadix radix) ∧ digitsToNat radix rest < 2 ^ 63 then
      some ((digitsToNat radix rest : Int))
    else none

/-- Model of Rust `s.splitn(2, sep)` followed by the source's two
`next().unwrap_or("")` calls: the part before the first occurrence of
`sep` and the part after it (the second component is empty when `sep`
does not occur, exactly as `unwrap_or` yields there). -/
def splitOnce : List Char → List Char → List Char × List Char
  | _, [] => ([], [])
  | sep, a :: rest =>
    if sep = [] then ([], a :: rest)
    else if begins sep (a :: rest) then ([], (a :: rest).drop sep.length)
    else
      let p := splitOnce sep rest
      (a :: p.1, p.2)

/-- The `while` loop of `tokenize`, recursing on the `remaining`
counter. State: current `partA`/`txt` from the last `splitn`, and the
accumulated result vector. -/
def tokenizeAux (sep : List Char) : Nat → List Char → List Char → List (List Char) → List (List Char)
  | 0, _, txt, acc => if txt = [] then acc else acc ++ [txt]
  | r + 1, partA, txt, acc =>
    if partA = [] then acc
    else if r = 0 then
      if txt = [] then acc ++ [partA] else acc ++ [partA, txt]
    else
      let p := splitOnce sep txt
      tokenizeAux sep r p.1 p.2 (acc ++ [partA])

/-- Model of the source's `tokenize(line, token, max_tokens)`.
(`max_tokens - 1` is the `usize` subtraction of the source; the source
is never called with `max_tokens = 0`, where the Rust debug build would
panic on underflow.) -/
def tokenize (line token : List Char) (max_tokens : Nat) : List (List Char) :=
  let p := splitOnce token line
  tokenizeAux token (max_tokens - 1) p.1 p.2 []

/-- Model of `tokenize_with_optional_field`: first tokenize assuming
the optional field is absent; if the first token equals it, re-split
the last token into two. -/
def tokenize_with_optional_field (line optional : List Char) (token : List Char) (max_tokens : Nat) : List (List Char) :=
  let tokens := tokenize line token (max_tokens - 1)
  let first := tokens.headD []
  if first = optional then
    let last := tokens.getLastD []
    let sub_tokens := tokenize last token 2
    tokens.dropLast ++ sub_tokens
  else tokens

/-- Join a list of tokens with a separator (specification-side helper
used to state tokenizer properties). -/
def joinSep (sep : List Char) : List (List Char) → List Char
  | [] => []
  | [t] => t
  | t :: ts => t ++ sep ++ joinSep sep ts

/-! ## Data model (structs of `addr2line_breakpad/src/lib.rs`) -/

/-- A `LINE` record: `<address> <size> <line number> <source file id>`. -/
structure Line where
  address : Nat
  size : Nat
  line_number : Int
  source_file_id : Int
deriving DecidableEq

/-- A `FUNC` record. -/
structure Function where
  address : Nat
  size : Nat
  stack_param_size : Int
  name : List Char
  is_multiple : Bool
deriving DecidableEq

/-- A `PUBLIC` record (a point address, no extent). -/
structure PublicSymbol where
  address : Nat
  stack_param_size : Int
  name : List Char
  is_multiple : Bool
deriving DecidableEq

/-- The resolved output of `lookup_address`. -/
structure Symbol where
  function_name : List Char
  source_file_name : List Char
  source_file_number : Int
deriving DecidableEq

structure RangeItem (T : Type) where
  item : T
  size : Nat
deriving DecidableEq

/-- `BTreeMap` insert semantics: replace any entry with the same key.
The list order carries no meaning; keys are unique after inserts. -/
def btInsert {T : Type} (m : List (Nat × T)) (k : Nat) (v : T) : List (Nat × T) :=
  m.filter (fun p => p.1 != k) ++ [(k, v)]

/-- `map.range((Included(&0), Included(&address))).next_back()`:
the entry with the greatest key `≤ a`, if any. -/
def btPred {T : Type} (a : Nat) : List (Nat × T) → Option (Nat × T)
  | [] => none
  | (k, v) :: rest =>
    match btPred a rest with
    | none => if k ≤ a then some (k, v) else none
    | some (k2, v2) => if k ≤ a ∧ k2 < k then some (k, v) else some (k2, v2)

/-- The keys of an association list are pairwise distinct (the
`BTreeMap` invariant). -/
def keysNodup {T : Type} (m : List (Nat × T)) : Prop :=
  (m.map Prod.fst).Nodup

instance keysNodupDecidable {T : Type} (m : List (Nat × T)) : Decidable (keysNodup m) :=
  List.nodupDecidable _

/-- Non-overlap of stored ranges, as the Breakpad format guarantees for
well-formed files: of two entries with distinct starts, the lower range
ends at or before the higher one starts. -/
def rangesDisjoint {T : Type} (m : List (Nat × RangeItem T)) : Prop :=
  ∀ p ∈ m, ∀ q ∈ m, p.1 < q.1 → p.1 + p.2.size ≤ q.1

/-- Every stored range end fits in a `u64` (no wrap in `start + size`). -/
def rangesBounded {T : Type} (m : List (Nat × RangeItem T)) : Prop :=
  ∀ p ∈ m, p.1 + p.2.size < 2 ^ 64

/-- `RangeMap<T>`: a `BTreeMap` from range start to `RangeItem`. -/
structure RangeMap (T : Type) where
  map : List (Nat × RangeItem T)
deriving DecidableEq

def RangeMap.new {T : Type} : RangeMap T := ⟨[]⟩

def RangeMap.insert {T : Type} (m : RangeMap T) (address size : Nat) (item : T) : RangeMap T :=
  ⟨btInsert m.map address ⟨item, size⟩⟩

/-- `RangeMap::retrieve_range`: predecessor entry of `address`, kept
only when `address ≤ target_address + target_size` (a `u64` addition,
hence the wrap). -/
def RangeMap.retrieve_range {T : Type} (m : RangeMap T) (address : Nat) : Option T :=
  match btPred address m.map with
  | some (target_address, range_item) =>
    if target_address ≤ address ∧ address ≤ wrap64 (target_address + range_item.size) then
      some range_item.item
    else none
  | none => none

/-- `find_public_symbol_by_address`: predecessor entry in the public
symbol index, with the source's (always-true) `target_address ≤ address`
re-check. -/
def find_public_symbol_by_address (m : List (Nat × PublicSymbol)) (address : Nat) : Option PublicSymbol :=
  match btPred address m with
  | some (target_address, target_item) =>
    if target_address ≤ address then some target_item else none
  | none => none

/-- `HashMap<i64, String>` insert: replace any entry with the same key. -/
def hmInsert (m : List (Int × List Char)) (k : Int) (v : List Char) : List (Int × List Char) :=
  m.filter (fun p => p.1 != k) ++ [(k, v)]

/-- `HashMap<i64, String>::get`. -/
def hmGet (m : List (Int × List Char)) (k : Int) : Option (List Char) :=
  (m.find? (fun p => p.1 == k)).map Prod.snd

/-- `SymbolFile`: the aggregated symbol table. -/
structure SymbolFile where
  files : List (Int × List Char)
  functions : RangeMap Function
  lines : RangeMap Line
  public_symbols : List (Nat × PublicSymbol)
deriving DecidableEq

/-- The freshly initialised `SymbolFile` of `parse_breakpad_symbol_file`. -/
def sfEmpty : SymbolFile := ⟨[], RangeMap.new, RangeMap.new, []⟩

/-- `lookup_address`: function range first (line data attached when a
line range also contains the address and the file id resolves), else
the public-symbol predecessor fallback. -/
def lookup_address (symbol_file : SymbolFile) (address : Nat) : Option Symbol :=
  match symbol_file.functions.retrieve_range address with
  | some function_record =>
    match symbol_file.lines.retrieve_range address with
    | some line =>
      some { function_name := function_record.name
             source_file_name :=
               match hmGet symbol_file.files line.source_file_id with
               | some filename => filename
               | none => []
             source_file_number := line.line_number }
    | none =>
      some { function_name := function_record.name
             source_file_name := []
             source_file_number := -1 }
  | none =>
    match find_public_symbol_by_address symbol_file.public_symbols address with
    | some public_record =>
      some { function_name := public_record.name
             source_file_name := []
             source_file_number := -1 }
    | none => none

/-! ## Symbol-file parser

Each `parse_*_line` returns `none` where the Rust function panics
(failed `assert_eq!`, `.get(i).unwrap()` on a missing token, or
`from_str_radix(..).unwrap()` on a malformed number); a panic aborts
the whole parse. -/

/-- `parse_file_line`: `FILE <id:decimal> <filename>`. -/
def parse_file_line (symbol : SymbolFile) (line : List Char) : Option SymbolFile :=
  if begins (chars "FILE ") line then
    let l := trim (line.drop 5)
    let tokens := tokenize l (chars " ") 2
    match tokens.get? 0, tokens.get? 1 with
    | some idTok, some filename =>
      match parseI64 10 idTok with
      | some id => some { symbol with files := hmInsert symbol.files id filename }
      | none => none
    | _, _ => none
  else none

/-- `parse_func_line`: `FUNC [m] <address:hex> <size:hex> <stack_param_size:hex> <name>`. -/
def parse_func_line (symbol : SymbolFile) (line : List Char) : Option SymbolFile :=
  if begins (chars "FUNC ") line then
    let l := trim (line.drop 5)
    let tokens := tokenize_with_optional_field l (chars "m") (chars " ") 5
    let is_multiple : Bool := 5 ≤ tokens.length && tokens.headD [] == chars "m"
    let offset := if is_multiple then 1 else 0
    match tokens.get? (offset + 0), tokens.get? (offset + 1),
          tokens.get? (offset + 2), tokens.get? (offset + 3) with
    | some aTok, some sTok, some pTok, some nTok =>
      match parseU64 16 aTok, parseU64 16 sTok, parseI64 16 pTok with
      | some address, some size, some stack_param_size =>
        some { symbol with
               functions := symbol.functions.insert address size
                 { address := address, size := size,
                   stack_param_size := stack_param_size,
                   name := nTok, is_multiple := is_multiple } }
      | _, _, _ => none
    | _, _, _, _ => none
  else none

/-- `parse_public_line`: `PUBLIC [m] <address:hex> <stack_param_size:hex> <name>`.
Note the source tests `tokens.len() >= 5` (copied from the FUNC parser)
although PUBLIC tokenization yields at most 4 tokens. -/
def parse_public_line (symbol : SymbolFile) (line : List Char) : Option SymbolFile :=
  if begins (chars "PUBLIC ") line then
    let l := trim (line.drop 7)
    let tokens := tokenize_with_optional_field l (chars "m") (chars " ") 4
    let is_multiple : Bool := 5 ≤ tokens.length && tokens.headD [] == chars "m"
    let offset := if is_multiple then 1 else 0
    match tokens.get? (offset + 0), tokens.get? (offset + 1), tokens.get? (offset + 2) with
    | some aTok, some pTok, some nTok =>
      match parseU64 16 aTok, parseI64 16 pTok with
      | some address, some stack_param_size =>
        some { symbol with
               public_symbols := btInsert symbol.public_symbols address
                 { address := address, stack_param_size := stack_param_size,
                   name := nTok, is_multiple := is_multiple } }
      | _, _ => none
    | _, _, _ => none
  else none

/-- `parse_line_line`: `<address:hex> <size:hex> <line:decimal> <file_id:decimal>`. -/
def parse_line_line (symbol : SymbolFile) (line : List Char) : Option SymbolFile :=
  let l := trim line
  let tokens := tokenize l (chars " ") 4
  match tokens.get? 0, tokens.get? 1, tokens.get? 2, tokens.get? 3 with
  | some aTok, some sTok, some lnTok, some fidTok =>
    match parseU64 16 aTok, parseU64 16 sTok, parseI64 10 lnTok, parseI64 10 fidTok with
    | some address, some size, some line_number, some source_file_id =>
      some { symbol with
             lines := symbol.lines.insert address size
               { address := address, size := size,
                 line_number := line_number, source_file_id := source_file_id } }
    | _, _, _, _ => none
  | _, _, _, _ => none

/-- One iteration of the dispatch loop of `parse_breakpad_symbol_file`. -/
def parseStep (symbol_file : SymbolFile) (line : List Char) : Option SymbolFile :=
  if begins (chars "FILE ") line then parse_file_line symbol_file line
  else if begins (chars "STACK ") line then some symbol_file
  else if begins (chars "FUNC ") line then parse_func_line symbol_file line
  else if begins (chars "PUBLIC ") line then parse_public_line symbol_file line
  else if begins (chars "MODULE ") line then some symbol_file
  else if begins (chars "INFO ") line then some symbol_file
  else parse_line_line symbol_file line

/-- `parse_breakpad_symbol_file`, modelled over the list of lines read
from the file (file I/O and the trailing-newline stripping of
`BufRead::lines` stay outside the model). -/
def parse_lines (symbol_file : SymbolFile) : List (List Char) → Option SymbolFile
  | [] => some symbol_file
  | l :: rest =>
    match parseStep symbol_file l with
    | some sf2 => parse_lines sf2 rest
    | none => none

/-! ## Crash-log symbolicator (`ips_breakpad/src/main.rs`) -/

/-- One lowercase hexadecimal digit character. -/
def hexDigit (n : Nat) : Char :=
  if n < 10 then Char.ofNat (48 + n) else Char.ofNat (87 + n)

/-- Digit accumulation for hex printing. The first `Nat` is
structural-recursion fuel: each step divides `n` by 16, so fuel `n`
never runs out. -/
def natToHexAux : Nat → Nat → List Char → List Char
  | 0, _, acc => acc
  | fuel + 1, n, acc =>
    if n = 0 then acc else natToHexAux fuel (n / 16) (hexDigit (n % 16) :: acc)

/-- Hex digits of `n`, as `format with :#x` prints after the `0x`. -/
def natToHex (n : Nat) : List Char :=
  if n = 0 then ['0'] else natToHexAux n n []

/-- Digit accumulation for decimal printing, with fuel as in
`natToHexAux`. -/
def natToDecAux : Nat → Nat → List Char → List Char
  | 0, _, acc => acc
  | fuel + 1, n, acc =>
    if n = 0 then acc else natToDecAux fuel (n / 10) (Char.ofNat (48 + n % 10) :: acc)

def natToDec (n : Nat) : List Char :=
  if n = 0 then ['0'] else natToDecAux n n []

/-- `i64::to_string`. -/
def intDec (i : Int) : List Char :=
  if i < 0 then '-' :: natToDec i.natAbs else natToDec i.toNat

/-- `get_symed_line`: format a lookup result as
`<function> <file or ??>:<line or ?>`; for a miss, the source's
`Not found symbol for address(<hex>` message (its missing closing
parenthesis included). -/
def get_symed_line (symbol_file : SymbolFile) (address : Nat) : List Char :=
  match lookup_address symbol_file address with
  | some symbol =>
    let source_file_name :=
      if symbol.source_file_name.length ≠ 0 then symbol.source_file_name else chars "??"
    let source_file_number :=
      if symbol.source_file_number ≠ -1 then intDec symbol.source_file_number else chars "?"
    symbol.function_name ++ chars " " ++ source_file_name ++ chars ":" ++ source_file_number
  | none => chars "Not found symbol for address(" ++ chars "0x" ++ natToHex address

/-- Regex class `\d` (ASCII decimal digits; the inputs in scope are ASCII). -/
def isDigitRe (c : Char) : Bool := '0' ≤ c && c ≤ '9'

/-- Regex class `\s` (ASCII part). -/
def isSpaceRe (c : Char) : Bool := isWs c

/-- Regex class `[a-zA-Z.]` of the module-name capture. -/
def isModChar (c : Char) : Bool :=
  ('a' ≤ c && c ≤ 'z') || ('A' ≤ c && c ≤ 'Z') || c == '.'

/-- Regex class `[0-9a-f]`. -/
def isHexLower (c : Char) : Bool := ('0' ≤ c && c ≤ '9') || ('a' ≤ c && c ≤ 'f')

/-- All ways a greedy star over class `p` can split `s`, longest
consumed part first — the candidate order a leftmost-first backtracking
regex engine explores. -/
def starSplits (p : Char → Bool) (s : List Char) : List (List Char × List Char) :=
  let m := s.takeWhile p
  let rest := s.drop m.length
  (List.range (m.length + 1)).reverse.map (fun k => (m.take k, m.drop k ++ rest))

/-- The named captures of the ips line pattern. -/
structure IpsCaps where
  i : List Char
  so : List Char
  mem_address : List Char
  base : List Char
  offset : List Char
deriving DecidableEq

/-- Backtracking matcher for the anchored pattern
`^(\d+)\s*([a-zA-Z.]*)\s*0x([0-9a-f]*)\s*0x([0-9a-f]*)\s\+\s([0-9]*)$`
with leftmost-first (greedy) capture semantics, as `Regex::captures`
yields on a single line. -/
def matchIps (line : List Char) : Option IpsCaps :=
  (starSplits isDigitRe line).findSome? fun q1 =>
    if q1.1 = [] then none else
    (starSplits isSpaceRe q1.2).findSome? fun q2 =>
      (starSplits isModChar q2.2).findSome? fun q3 =>
        (starSplits isSpaceRe q3.2).findSome? fun q4 =>
          match q4.2 with
          | '0' :: 'x' :: r5 =>
            (starSplits isHexLower r5).findSome? fun q5 =>
              (starSplits isSpaceRe q5.2).findSome? fun q6 =>
                match q6.2 with
                | '0' :: 'x' :: r7 =>
                  (starSplits isHexLower r7).findSome? fun q7 =>
                    match q7.2 with
                    | c1 :: '+' :: c2 :: r8 =>
                      if isSpaceRe c1 && isSpaceRe c2 then
                        (starSplits isDigitRe r8).findSome? fun q8 =>
                          if q8.2 = [] then
                            some { i := q1.1, so := q3.1, mem_address := q5.1,
                                   base := q7.1, offset := q8.1 }
                          else none
                      else none
                    | _ => none
                | _ => none
          | _ => none

/-- Model of Rust `str::replace` for a nonempty pattern: replace every
non-overlapping occurrence, scanning left to right. The `Nat` argument
is structural-recursion fuel; each step consumes at least one input
character, so the initial fuel `s.length` never runs out. (The source
never calls replace with an empty pattern: the replaced string is an
offset that passed `parse::<u64>`, hence nonempty.) -/
def replaceAllGo (p0 : Char) (pt sub : List Char) : Nat → List Char → List Char
  | 0, s => s
  | _ + 1, [] => []
  | fuel + 1, c :: rest =>
    if begins (p0 :: pt) (c :: rest) then
      sub ++ replaceAllGo p0 pt sub fuel (rest.drop pt.length)
    else
      c :: replaceAllGo p0 pt sub fuel rest

def replaceAll (s pat sub : List Char) : List Char :=
  match pat with
  | [] => s
  | p0 :: pt => replaceAllGo p0 pt sub s.length s

/-- One iteration of the `parser_ips` loop: the list of output lines
printed for one input line. A non-matching line is echoed; a matching
line with the target module is echoed with every occurrence of its
offset capture replaced by the resolved description; a matching line
whose module differs from the target, or whose offset fails
`parse::<u64>`, produces no output (the source has no `else` there). -/
def parser_ips_line (symfile : SymbolFile) (soname : List Char) (line : List Char) : List (List Char) :=
  match matchIps line with
  | some cap =>
    if cap.so = soname then
      match parseU64 10 cap.offset with
      | some e => [replaceAll line cap.offset (get_symed_line symfile e)]
      | none => []
    else []
  | none => [line]

/-- `parser_ips`, modelled over the list of input lines: the
concatenation of the per-line outputs, in file order. -/
def parser_ips (symfile : SymbolFile) (soname : List Char) (lines : List (List Char)) : List (List Char) :=
  lines.foldr (fun l acc => parser_ips_line symfile soname l ++ acc) []

/-! ## Concrete instances used by witnesses and counterexamples -/

/-- The range map of the source's `test_find_function_by_address`
(ranges `[0,2],[2,3],[3,4],[6,7],[7,8]`), with the range start as item. -/
def testRanges : RangeMap Nat :=
  ((((RangeMap.new.insert 0 2 0).insert 2 1 2).insert 3 1 3).insert 6 1 6).insert 7 1 7

/-- A table with a single public symbol at address 16 and no functions. -/
def sfPub : SymbolFile :=
  { files := []
    functions := RangeMap.new
    lines := RangeMap.new
    public_symbols :=
      [(16, { address := 16, stack_param_size := 0, name := chars "pubSym", is_multiple := false })] }

/-- A table with a function range `[0x100, 0x130]`, a line range
`[0x11a, 0x11c]` referencing file 1, and a public symbol at `0x118` —
closer to the query address `0x11b` than the function start. -/
def sfPrio : SymbolFile :=
  { files := [(1, chars "foo.c")]
    functions := RangeMap.new.insert 256 48
      { address := 256, size := 48, stack_param_size := 0,
        name := chars "myFunc", is_multiple := false }
    lines := RangeMap.new.insert 282 2
      { address := 282, size := 2, line_number := 5, source_file_id := 1 }
    public_symbols :=
      [(280, { address := 280, stack_param_size := 0, name := chars "closePub", is_multiple := false })] }

/-- A small well-formed symbol file, as a list of input lines. -/
def ls8 : List (List Char) :=
  [chars "MODULE Linux arm64 ABCDEF test.so",
   chars "FILE 1 foo.c",
   chars "FUNC 100 10 0 myFunc",
   chars "10a 2 7 1",
   chars "PUBLIC 200 0 pubSym"]

/-- The symbol table parsed from `ls8`. -/
def sf8 : SymbolFile := (parse_lines sfEmpty ls8).getD sfEmpty

/-- The symbol table parsed from the single line `FILE 1 foo.c`. -/
def sfF : SymbolFile := (parse_lines sfEmpty [chars "FILE 1 foo.c"]).getD sfEmpty

/-! ## Lemmas about the predecessor search `btPred` -/

theorem btPred_mem {T : Type} {a : Nat} {m : List (Nat × T)} {e : Nat × T}
    (h : btPred a m = some e) : e ∈ m ∧ e.1 ≤ a := by
  induction m with
  | nil => simp [btPred] at h
  | cons p rest ih =>
    obtain ⟨k, v⟩ := p
    rw [btPred] at h
    cases hr : btPred a rest with
    | none =>
      rw [hr] at h
      by_cases hk : k ≤ a
      · rw [if_pos hk] at h
        obtain rfl := Option.some.inj h
        exact ⟨List.mem_cons_self _ _, hk⟩
      · rw [if_neg hk] at h; cases h
    | some e2 =>
      obtain ⟨k2, v2⟩ := e2
      rw [hr] at h
      dsimp only at h
      by_cases hc : k ≤ a ∧ k2 < k
      · rw [if_pos hc] at h
        obtain rfl := Option.some.inj h
        exact ⟨List.mem_cons_self _ _, hc.1⟩
      · rw [if_neg hc] at h
        obtain rfl := Option.some.inj h
        obtain ⟨hm, hle⟩ := ih hr
        exact ⟨List.mem_cons_of_mem _ hm, hle⟩

theorem btPred_none {T : Type} {a : Nat} {m : List (Nat × T)}
    (h : btPred a m = none) : ∀ p ∈ m, a < p.1 := by
  induction m with
  | nil => intro p hp; simp at hp
  | cons q rest ih =>
    obtain ⟨k, v⟩ := q
    intro p hp
    rw [btPred] at h
    cases hr : btPred a rest with
    | none =>
      rw [hr] at h
      by_cases hk : k ≤ a
      · rw [if_pos hk] at h; cases h
      · rcases List.mem_cons.1 hp with rfl | hmem
        · exact Nat.not_le.1 hk
        · exact ih hr p hmem
    | some e2 =>
      obtain ⟨k2, v2⟩ := e2
      rw [hr] at h
      dsimp only at h
      by_cases hc : k ≤ a ∧ k2 < k
      · rw [if_pos hc] at h; cases h
      · rw [if_neg hc] at h; cases h

theorem btPred_max {T : Type} {a : Nat} {m : List (Nat × T)} :
    ∀ {e : Nat × T}, btPred a m = some e → ∀ p ∈ m, p.1 ≤ a → p.1 ≤ e.1 := by
  induction m with
  | nil => intro e h; simp [btPred] at h
  | cons q rest ih =>
    obtain ⟨k, v⟩ := q
    intro e h p hp hpa
    rw [btPred] at h
    rcases List.mem_cons.1 hp with rfl | hmem
    · cases hr : btPred a rest with
      | none =>
        rw [hr] at h
        dsimp only at h
        by_cases hk : k ≤ a
        · rw [if_pos hk] at h; obtain rfl := Option.some.inj h; exact le_rfl
        · exact absurd hpa hk
      | some e2 =>
        obtain ⟨k2, v2⟩ := e2
        rw [hr] at h
        dsimp only at h
        by_cases hc : k ≤ a ∧ k2 < k
        · rw [if_pos hc] at h; obtain rfl := Option.some.inj h; exact le_rfl
        · rw [if_neg hc] at h
          obtain rfl := Option.some.inj h
          simp only [not_and, not_lt] at hc
          exact hc hpa
    · cases hr : btPred a rest with
      | none => exact absurd hpa (Nat.not_le.2 (btPred_none hr p hmem))
      | some e2 =>
        obtain ⟨k2, v2⟩ := e2
        have hrec := ih hr p hmem hpa
        rw [hr] at h
        dsimp only at h
        by_cases hc : k ≤ a ∧ k2 < k
        · rw [if_pos hc] at h
          obtain rfl := Option.some.inj h
          simp only at hrec ⊢
          omega
        · rw [if_neg hc] at h
          obtain rfl := Option.some.inj h
          exact hrec

theorem btPred_isSome {T : Type} {a : Nat} {m : List (Nat × T)} {k : Nat} {v : T}
    (hm : (k, v) ∈ m) (hka : k ≤ a) : ∃ e, btPred a m = some e := by
  cases h : btPred a m with
  | none => exact absurd hka (by simpa using btPred_none h (k, v) hm)
  | some e => exact ⟨e, rfl⟩

theorem keysNodup_inj {T : Type} {m : List (Nat × T)} (h : keysNodup m)
    {k : Nat} {v v2 : T} (h1 : (k, v) ∈ m) (h2 : (k, v2) ∈ m) : v = v2 := by
  induction m with
  | nil => simp at h1
  | cons p rest ih =>
    obtain ⟨kp, vp⟩ := p
    have hnd : kp ∉ rest.map Prod.fst ∧ keysNodup rest := by
      simpa [keysNodup] using h
    rcases List.mem_cons.1 h1 with e1 | e1 <;> rcases List.mem_cons.1 h2 with e2 | e2
    · cases e1; cases e2; rfl
    · cases e1
      exact absurd (List.mem_map.2 ⟨(k, v2), e2, rfl⟩) hnd.1
    · cases e2
      exact absurd (List.mem_map.2 ⟨(k, v), e1, rfl⟩) hnd.1
    · exact ih hnd.2 e1 e2

/-- In a map with distinct keys, `btPred` returns exactly the entry
whose key is greatest among those `≤ a`. -/
theorem btPred_det {T : Type} {a : Nat} {m : List (Nat × T)} {k : Nat} {v : T}
    (hnd : keysNodup m) (hm : (k, v) ∈ m) (hka : k ≤ a)
    (hmax : ∀ p ∈ m, p.1 ≤ a → p.1 ≤ k) :
    btPred a m = some (k, v) := by
  obtain ⟨⟨k2, v2⟩, he⟩ := btPred_isSome hm hka
  obtain ⟨hmem, hle⟩ := btPred_mem he
  have h1 : k ≤ k2 := btPred_max he (k, v) hm hka
  have h2 : k2 ≤ k := hmax (k2, v2) hmem hle
  have hk : k2 = k := le_antisymm h2 h1
  subst hk
  rw [he, keysNodup_inj hnd hmem hm]

/-- At a key that is present, `btPred` returns that very entry. -/
theorem btPred_at_key {T : Type} {m : List (Nat × T)} {k : Nat} {v : T}
    (hnd : keysNodup m) (hm : (k, v) ∈ m) :
    btPred k m = some (k, v) :=
  btPred_det hnd hm le_rfl (fun _ _ h => h)

theorem wrap64_eq_of_lt {n : Nat} (h : n < 2 ^ 64) : wrap64 n = n := by
  have : (2 : Nat) ^ 64 = 18446744073709551616 := by norm_num
  exact Nat.mod_eq_of_lt (by omega)

/-! ## Map-insertion invariants -/

theorem btInsert_keysNodup {T : Type} {m : List (Nat × T)} (k : Nat) (v : T)
    (h : keysNodup m) : keysNodup (btInsert m k v) := by
  unfold keysNodup btInsert
  rw [List.map_append]
  rw [List.nodup_append]
  refine ⟨?_, by simp, ?_⟩
  · exact ((List.filter_sublist m).map Prod.fst).nodup h
  · intro x hx
    obtain ⟨p, hp, rfl⟩ := List.mem_map.1 hx
    have := List.of_mem_filter hp
    simp only [bne_iff_ne, ne_eq] at this
    simpa using this

/-- After inserting at key `k`, the entry at `k` is the inserted one. -/
theorem btInsert_mem_self {T : Type} (m : List (Nat × T)) (k : Nat) (v : T) :
    (k, v) ∈ btInsert m k v := by
  unfold btInsert
  simp

/-- `RangeMap.retrieve_range` at a stored start address succeeds with
that entry's item, provided the range end fits in a `u64`. -/
theorem retrieve_at_key {T : Type} {m : RangeMap T} {k : Nat} {ri : RangeItem T}
    (hnd : keysNodup m.map) (hm : (k, ri) ∈ m.map) (hov : k + ri.size < 2 ^ 64) :
    m.retrieve_range k = some ri.item := by
  unfold RangeMap.retrieve_range
  rw [btPred_at_key hnd hm]
  dsimp only
  rw [if_pos ⟨le_rfl, by rw [wrap64_eq_of_lt hov]; omega⟩]

/-- If some stored range contains the query address and the stored
ranges are non-overlapping with ends fitting in a `u64`, the range
lookup succeeds (the predecessor entry's containment test passes). -/
theorem retrieve_of_contains {T : Type} {m : List (Nat × RangeItem T)} {a k : Nat}
    {ri : RangeItem T}
    (hnd : keysNodup m) (hdisj : rangesDisjoint m) (hov : rangesBounded m)
    (hm : (k, ri) ∈ m) (hka : k ≤ a) (hak : a ≤ k + ri.size) :
    ∃ item, RangeMap.retrieve_range ⟨m⟩ a = some item := by
  obtain ⟨⟨kp, rp⟩, he⟩ := btPred_isSome hm hka
  have hmemp := (btPred_mem he).1
  have hkpa := (btPred_mem he).2
  have hkkp : k ≤ kp := btPred_max he (k, ri) hm hka
  have hgate : a ≤ kp + rp.size := by
    rcases Nat.lt_or_ge k kp with hlt | hge
    · have := hdisj (k, ri) hm (kp, rp) hmemp hlt
      simp only at this
      omega
    · obtain rfl : k = kp := le_antisymm hkkp hge
      obtain rfl : ri = rp := keysNodup_inj hnd hm hmemp
      exact hak
  refine ⟨rp.item, ?_⟩
  unfold RangeMap.retrieve_range
  rw [he]
  dsimp only
  rw [if_pos ⟨hkpa, by rw [wrap64_eq_of_lt (hov (kp, rp) hmemp)]; exact hgate⟩]

/-! ## Parse-loop lemmas -/

theorem parse_lines_append (sf : SymbolFile) (ls1 ls2 : List (List Char)) :
    parse_lines sf (ls1 ++ ls2) =
      (parse_lines sf ls1).bind (fun sf2 => parse_lines sf2 ls2) := by
  induction ls1 generalizing sf with
  | nil => simp [parse_lines]
  | cons l rest ih =>
    rw [List.cons_append, parse_lines, parse_lines]
    cases parseStep sf l with
    | none => simp
    | some sf2 => simpa using ih sf2

theorem parse_file_line_functions {sf sf2 : SymbolFile} {l : List Char}
    (h : parse_file_line sf l = some sf2) : sf2.functions = sf.functions := by
  unfold parse_file_line at h
  by_cases hb : begins (chars "FILE ") l = true
  · rw [if_pos hb] at h
    dsimp only at h
    cases h1 : (tokenize (trim (l.drop 5)) (chars " ") 2).get? 0 with
    | none => rw [h1] at h; cases h
    | some idTok =>
      cases h2 : (tokenize (trim (l.drop 5)) (chars " ") 2).get? 1 with
      | none => rw [h1, h2] at h; cases h
      | some filename =>
        rw [h1, h2] at h
        dsimp only at h
        cases h3 : parseI64 10 idTok with
        | none => rw [h3] at h; cases h
        | some id =>
          rw [h3] at h
          obtain rfl := Option.some.inj h
          rfl
  · rw [if_neg hb] at h; cases h

theorem parse_public_line_functions {sf sf2 : SymbolFile} {l : List Char}
    (h : parse_public_line sf l = some sf2) : sf2.functions = sf.functions := by
  unfold parse_public_line at h
  by_cases hb : begins (chars "PUBLIC ") l = true
  · rw [if_pos hb] at h
    dsimp only at h
    set tokens := tokenize_with_optional_field (trim (l.drop 7)) (chars "m") (chars " ") 4 with ht
    set off := if (5 ≤ tokens.length && tokens.headD [] == chars "m" : Bool) then 1 else 0 with ho
    cases h1 : tokens.get? (off + 0) with
    | none => rw [h1] at h; cases h
    | some aTok =>
      cases h2 : tokens.get? (off + 1) with
      | none => rw [h1, h2] at h; cases h
      | some pTok =>
        cases h3 : tokens.get? (off + 2) with
        | none => rw [h1, h2, h3] at h; cases h
        | some nTok =>
          rw [h1, h2, h3] at h
          dsimp only at h
          cases h4 : parseU64 16 aTok with
          | none => rw [h4] at h; cases h
          | some address =>
            cases h5 : parseI64 16 pTok with
            | none => rw [h4, h5] at h; cases h
            | some sps =>
              rw [h4, h5] at h
              obtain rfl := Option.some.inj h
              rfl
  · rw [if_neg hb] at h; cases h

theorem parse_line_line_functions {sf sf2 : SymbolFile} {l : List Char}
    (h : parse_line_line sf l = some sf2) : sf2.functions = sf.functions := by
  unfold parse_line_line at h
  dsimp only at h
  set tokens := tokenize (trim l) (chars " ") 4 with ht
  cases h1 : tokens.get? 0 with
  | none => rw [h1] at h; cases h
  | some aTok =>
    cases h2 : tokens.get? 1 with
    | none => rw [h1, h2] at h; cases h
    | some sTok =>
      cases h3 : tokens.get? 2 with
      | none => rw [h1, h2, h3] at h; cases h
      | some lnTok =>
        cases h4 : tokens.get? 3 with
        | none => rw [h1, h2, h3, h4] at h; cases h
        | some fidTok =>
          rw [h1, h2, h3, h4] at h
          dsimp only at h
          cases h5 : parseU64 16 aTok with
          | none => rw [h5] at h; cases h
          | some address =>
            cases h6 : parseU64 16 sTok with
            | none => rw [h5, h6] at h; cases h
            | some size =>
              cases h7 : parseI64 10 lnTok with
              | none => rw [h5, h6, h7] at h; cases h
              | some ln =>
                cases h8 : parseI64 10 fidTok with
                | none => rw [h5, h6, h7, h8] at h; cases h
                | some fid =>
                  rw [h5, h6, h7, h8] at h
                  obtain rfl := Option.some.inj h
                  rfl

theorem parse_func_line_functions {sf sf2 : SymbolFile} {l : List Char}
    (h : parse_func_line sf l = some sf2) :
    ∃ a s f, sf2.functions = sf.functions.insert a s f := by
  unfold parse_func_line at h
  by_cases hb : begins (chars "FUNC ") l = true
  · rw [if_pos hb] at h
    dsimp only at h
    set tokens := tokenize_with_optional_field (trim (l.drop 5)) (chars "m") (chars " ") 5 with ht
    set off := if (5 ≤ tokens.length && tokens.headD [] == chars "m" : Bool) then 1 else 0 with ho
    cases h1 : tokens.get? (off + 0) with
    | none => rw [h1] at h; cases h
    | some aTok =>
      cases h2 : tokens.get? (off + 1) with
      | none => rw [h1, h2] at h; cases h
      | some sTok =>
        cases h3 : tokens.get? (off + 2) with
        | none => rw [h1, h2, h3] at h; cases h
        | some pTok =>
          cases h4 : tokens.get? (off + 3) with
          | none => rw [h1, h2, h3, h4] at h; cases h
          | some nTok =>
            rw [h1, h2, h3, h4] at h
            dsimp only at h
            cases h5 : parseU64 16 aTok with
            | none => rw [h5] at h; cases h
            | some address =>
              cases h6 : parseU64 16 sTok with
              | none => rw [h5, h6] at h; cases h
              | some size =>
                cases h7 : parseI64 16 pTok with
                | none => rw [h5, h6, h7] at h; cases h
                | some sps =>
                  rw [h5, h6, h7] at h
                  obtain rfl := Option.some.inj h
                  exact ⟨address, size, _, rfl⟩
  · rw [if_neg hb] at h; cases h

theorem parseStep_functions_nodup {sf sf2 : SymbolFile} {l : List Char}
    (h : parseStep sf l = some sf2) (hnd : keysNodup sf.functions.map) :
    keysNodup sf2.functions.map := by
  unfold parseStep at h
  by_cases h1 : begins (chars "FILE ") l = true
  · rw [if_pos h1] at h
    rw [parse_file_line_functions h]; exact hnd
  · rw [if_neg h1] at h
    by_cases h2 : begins (chars "STACK ") l = true
    · rw [if_pos h2] at h; obtain rfl := Option.some.inj h; exact hnd
    · rw [if_neg h2] at h
      by_cases h3 : begins (chars "FUNC ") l = true
      · rw [if_pos h3] at h
        obtain ⟨a, s, f, hf⟩ := parse_func_line_functions h
        rw [hf]
        exact btInsert_keysNodup _ _ hnd
      · rw [if_neg h3] at h
        by_cases h4 : begins (chars "PUBLIC ") l = true
        · rw [if_pos h4] at h
          rw [parse_public_line_functions h]; exact hnd
        · rw [if_neg h4] at h
          by_cases h5 : begins (chars "MODULE ") l = true
          · rw [if_pos h5] at h; obtain rfl := Option.some.inj h; exact hnd
          · rw [if_neg h5] at h
            by_cases h6 : begins (chars "INFO ") l = true
            · rw [if_pos h6] at h; obtain rfl := Option.some.inj h; exact hnd
            · rw [if_neg h6] at h
              rw [parse_line_line_functions h]; exact hnd

theorem parse_lines_functions_nodup {sf sf2 : SymbolFile} {ls : List (List Char)}
    (h : parse_lines sf ls = some sf2) (hnd : keysNodup sf.functions.map) :
    keysNodup sf2.functions.map := by
  induction ls generalizing sf with
  | nil =>
    rw [parse_lines] at h
    obtain rfl := Option.some.inj h
    exact hnd
  | cons l rest ih =>
    rw [parse_lines] at h
    cases hs : parseStep sf l with
    | none => rw [hs] at h; cases h
    | some sfm =>
      rw [hs] at h
      exact ih h (parseStep_functions_nodup hs hnd)

/-! ## Lookup helper -/

/-- Whenever the function index resolves the address, the result of
`lookup_address` exists and carries that function's name — whatever the
line index, file map and public symbols contain. -/
theorem lookup_function_name {sf : SymbolFile} {a : Nat} {f : Function}
    (h : sf.functions.retrieve_range a = some f) :
    ∃ sym, lookup_address sf a = some sym ∧ sym.function_name = f.name := by
  unfold lookup_address
  rw [h]
  cases sf.lines.retrieve_range a with
  | none => exact ⟨_, rfl, rfl⟩
  | some line =>
    cases hmGet sf.files line.source_file_id with
    | none => exact ⟨_, rfl, rfl⟩
    | some filename => exact ⟨_, rfl, rfl⟩

/-! ## Claims -/

/-- C1: whenever the function range index resolves an address — and,
for non-overlapping stored ranges with `u64`-bounded ends, whenever any
stored function range contains the address at all — the result of
`lookup_address` exists and its function name is the resolved
function's name, whatever the public-symbol index contains: a public
symbol closer in address can never take priority. If additionally the
line index resolves the address and its file id resolves in the file
map, the result carries that line number and filename; if the line
index does not resolve the address, the result is the function name
with empty source file name and line-number sentinel `-1`. -/
theorem claim_C1 (sf : SymbolFile) (a : Nat) :
    (∀ f, sf.functions.retrieve_range a = some f →
      ∃ sym, lookup_address sf a = some sym ∧ sym.function_name = f.name) ∧
    (∀ f ln fname, sf.functions.retrieve_range a = some f →
      sf.lines.retrieve_range a = some ln →
      hmGet sf.files ln.source_file_id = some fname →
      lookup_address sf a = some ⟨f.name, fname, ln.line_number⟩) ∧
    (∀ f, sf.functions.retrieve_range a = some f →
      sf.lines.retrieve_range a = none →
      lookup_address sf a = some ⟨f.name, [], -1⟩) ∧
    (keysNodup sf.functions.map → rangesDisjoint sf.functions.map →
      rangesBounded sf.functions.map →
      ∀ k ri, (k, ri) ∈ sf.functions.map → k ≤ a → a ≤ k + ri.size →
      ∃ f sym, sf.functions.retrieve_range a = some f ∧
        lookup_address sf a = some sym ∧ sym.function_name = f.name) := by
  refine ⟨?_, ?_, ?_, ?_⟩
  · intro f h
    exact lookup_function_name h
  · intro f ln fname h hl hf
    unfold lookup_address
    rw [h, hl]
    dsimp only
    rw [hf]
  · intro f h hl
    unfold lookup_address
    rw [h, hl]
  · intro hnd hdisj hov k ri hm hka hak
    obtain ⟨item, hr⟩ := retrieve_of_contains hnd hdisj hov hm hka hak
    have hr2 : sf.functions.retrieve_range a = some item := hr
    obtain ⟨sym, hs, hn⟩ := lookup_function_name hr2
    exact ⟨item, sym, hr2, hs, hn⟩

/-- Witness for C1 on `sfPrio`: the query `0x11b` sits in the function
range and in the line range, the public symbol at `0x118` is closer but
does not win. -/
theorem claim_C1_witness :
    lookup_address sfPrio 283 = some ⟨chars "myFunc", chars "foo.c", 5⟩ :=
  (claim_C1 sfPrio 283).2.1
    { address := 256, size := 48, stack_param_size := 0,
      name := chars "myFunc", is_multiple := false }
    { address := 282, size := 2, line_number := 5, source_file_id := 1 }
    (chars "foo.c") (by decide) (by decide) (by decide)

/-- C4: when no function range contains the address, `lookup_address`
returns the public symbol with the greatest address `≤` the query (with
empty source file name and line number `-1`) — with no upper bound on
the distance past that symbol's address — and returns no result exactly
when no public symbol lies at or below the address. -/
theorem claim_C4 (sf : SymbolFile) (a : Nat)
    (h : sf.functions.retrieve_range a = none) :
    (∀ k p, (k, p) ∈ sf.public_symbols → k ≤ a →
      (∀ q ∈ sf.public_symbols, q.1 ≤ a → q.1 ≤ k) →
      keysNodup sf.public_symbols →
      lookup_address sf a = some ⟨p.name, [], -1⟩) ∧
    (lookup_address sf a = none ↔ ∀ q ∈ sf.public_symbols, a < q.1) := by
  constructor
  · intro k p hm hka hmax hnd
    unfold lookup_address
    rw [h]
    unfold find_public_symbol_by_address
    rw [btPred_det hnd hm hka hmax]
    dsimp only
    rw [if_pos hka]
  · constructor
    · intro hn q hq
      by_contra hlt
      push_neg at hlt
      obtain ⟨e, he⟩ := btPred_isSome (show (q.1, q.2) ∈ sf.public_symbols by
        rwa [Prod.mk.eta]) hlt
      unfold lookup_address at hn
      rw [h] at hn
      unfold find_public_symbol_by_address at hn
      rw [he] at hn
      obtain ⟨ke, ve⟩ := e
      dsimp only at hn
      rw [if_pos (btPred_mem he).2] at hn
      cases hn
    · intro hall
      unfold lookup_address
      rw [h]
      unfold find_public_symbol_by_address
      cases hb : btPred a sf.public_symbols with
      | none => rfl
      | some e =>
        exact absurd (btPred_mem hb).2 (Nat.not_le.2 (hall e (btPred_mem hb).1))

/-- Witness for C4 on `sfPub`: the only public symbol sits at 16, the
query is 1000000 — far past the symbol, still attributed to it. -/
theorem claim_C4_witness :
    lookup_address sfPub 1000000 = some ⟨chars "pubSym", [], -1⟩ :=
  (claim_C4 sfPub 1000000 (by decide)).1 16
    { address := 16, stack_param_size := 0, name := chars "pubSym", is_multiple := false }
    (by decide) (by decide) (by decide) (by decide)

/-- C5 (amended): for a range map with distinct start keys,
`retrieve_range a` returns the item of the entry with the greatest
start `≤ a` if and only if `a ≤ start + size` — provided
`start + size` fits in a `u64` (the source computes the range end with
`u64` addition, which wraps) — returns none on the empty map and when
`a` precedes every start, and on the ranges
`[0,2],[2,3],[3,4],[6,7],[7,8]` retrieve(3) is the range starting at 3
while retrieve(5) is none. -/
theorem claim_C5 :
    (∀ (T : Type) (m : List (Nat × RangeItem T)) (a k : Nat) (ri : RangeItem T),
      keysNodup m → (k, ri) ∈ m → k ≤ a →
      (∀ q ∈ m, q.1 ≤ a → q.1 ≤ k) →
      k + ri.size < 2 ^ 64 →
      (RangeMap.retrieve_range ⟨m⟩ a = some ri.item ↔ a ≤ k + ri.size)) ∧
    (∀ a : Nat, RangeMap.retrieve_range (⟨[]⟩ : RangeMap Nat) a = none) ∧
    (∀ (T : Type) (m : List (Nat × RangeItem T)) (a : Nat),
      (∀ q ∈ m, a < q.1) → RangeMap.retrieve_range ⟨m⟩ a = none) ∧
    testRanges.retrieve_range 3 = some 3 ∧
    testRanges.retrieve_range 5 = none := by
  refine ⟨?_, ?_, ?_, by decide, by decide⟩
  · intro T m a k ri hnd hm hka hmax hov
    unfold RangeMap.retrieve_range
    rw [btPred_det hnd hm hka hmax]
    dsimp only
    rw [wrap64_eq_of_lt hov]
    constructor
    · intro hsome
      by_contra hgt
      rw [if_neg (fun hc => hgt hc.2)] at hsome
      cases hsome
    · intro hle
      rw [if_pos ⟨hka, hle⟩]
  · intro a
    rfl
  · intro T m a hall
    unfold RangeMap.retrieve_range
    cases hb : btPred a m with
    | none => rfl
    | some e =>
      exact absurd (btPred_mem hb).2 (Nat.not_le.2 (hall e (btPred_mem hb).1))

/-- Witness for C5 on the source test's ranges: retrieve(8) finds the
entry starting at 7 (greatest start `≤ 8`, and `8 ≤ 7 + 1`). -/
theorem claim_C5_witness :
    testRanges.retrieve_range 8 = some 7 :=
  ((claim_C5.1 Nat testRanges.map 8 7 ⟨7, 1⟩
      (by decide) (by decide) (by decide) (by decide) (by decide)).2 (by decide))

/-- Counterexample for C5 as stated: for the single inserted range with
start `2^64 - 1` and size `2^64 - 1`, the query `2^64 - 1` satisfies
`start ≤ a ≤ start + size` in plain arithmetic, yet `retrieve_range`
returns none, because the source computes `start + size` in `u64`
arithmetic, which wraps to `2^64 - 2`. -/
theorem claim_C5_counterexample :
    (RangeMap.new.insert 18446744073709551615 18446744073709551615 (0 : Nat)).retrieve_range
        18446744073709551615 = none ∧
    18446744073709551615 ≤ 18446744073709551615 + 18446744073709551615 := by
  constructor
  · decide
  · omega

/-- C8: parsing any list of symbol-file lines and then looking up the
start address of any stored function range yields a result carrying
that function's own name (provided the range end fits in a `u64`; the
distinct-start-address hypothesis of the claim is automatic, since the
`BTreeMap` keeps one entry per start address). -/
theorem claim_C8 (ls : List (List Char)) (sf : SymbolFile)
    (h : parse_lines sfEmpty ls = some sf)
    (k : Nat) (ri : RangeItem Function) (hm : (k, ri) ∈ sf.functions.map)
    (hov : k + ri.size < 2 ^ 64) :
    ∃ sym, lookup_address sf k = some sym ∧ sym.function_name = ri.item.name := by
  have hnd : keysNodup sf.functions.map :=
    parse_lines_functions_nodup h (by simp [sfEmpty, RangeMap.new, keysNodup])
  exact lookup_function_name (retrieve_at_key hnd hm hov)

/-- Witness for C8 on the file `ls8`: the function parsed from
`FUNC 100 10 0 myFunc` is found again at its start address `0x100`. -/
theorem claim_C8_witness :
    ∃ sym, lookup_address sf8 256 = some sym ∧ sym.function_name = chars "myFunc" :=
  claim_C8 ls8 sf8 (by decide) 256
    ⟨{ address := 256, size := 16, stack_param_size := 0,
       name := chars "myFunc", is_multiple := false }, 16⟩
    (by decide) (by decide)

/-- C9: if a prefix of the file parses and the next line is one the
record parser rejects (missing token, non-numeric field, …), the whole
parse returns no symbol table, whatever lines follow — the parser
aborts at the first malformed line instead of skipping it. -/
theorem claim_C9 (pre : List (List Char)) (l : List Char) (post : List (List Char))
    (sf : SymbolFile) (hpre : parse_lines sfEmpty pre = some sf)
    (hbad : parseStep sf l = none) :
    parse_lines sfEmpty (pre ++ l :: post) = none := by
  rw [parse_lines_append, hpre]
  show parse_lines sf (l :: post) = none
  rw [parse_lines, hbad]

/-- Witness for C9: `FUNC zz 10 0 f` has a non-hexadecimal address
field, so the file aborts although a valid line follows. -/
theorem claim_C9_witness :
    parse_lines sfEmpty
      [chars "FILE 1 foo.c", chars "FUNC zz 10 0 f", chars "PUBLIC 200 0 p"] = none :=
  claim_C9 [chars "FILE 1 foo.c"] (chars "FUNC zz 10 0 f") [chars "PUBLIC 200 0 p"]
    sfF (by decide) (by decide)

theorem begins_ws_false {p0 : Char} (pt : List Char) {w : List Char}
    (hw : ∀ c ∈ w, isWs c = true) (hp : isWs p0 = false) :
    begins (p0 :: pt) w = false := by
  cases w with
  | nil => rfl
  | cons c rest =>
    rw [begins]
    have hne : (p0 == c) = false := by
      refine beq_eq_false_iff_ne.2 (fun h => ?_)
      rw [h] at hp
      rw [hw c (List.mem_cons_self _ _)] at hp
      cases hp
    rw [hne, Bool.false_and]

theorem trim_ws_nil {w : List Char} (hw : ∀ c ∈ w, isWs c = true) :
    trim w = [] := by
  unfold trim
  rw [List.dropWhile_eq_nil_iff.2 hw]
  rfl

/-- A line of only whitespace reaches the line-record fallback and is
rejected there. -/
theorem parseStep_ws_none (sf : SymbolFile) {w : List Char}
    (hw : ∀ c ∈ w, isWs c = true) : parseStep sf w = none := by
  unfold parseStep
  rw [show begins (chars "FILE ") w = false from begins_ws_false _ hw rfl,
      show begins (chars "STACK ") w = false from begins_ws_false _ hw rfl,
      show begins (chars "FUNC ") w = false from begins_ws_false _ hw rfl,
      show begins (chars "PUBLIC ") w = false from begins_ws_false _ hw rfl,
      show begins (chars "MODULE ") w = false from begins_ws_false _ hw rfl,
      show begins (chars "INFO ") w = false from begins_ws_false _ hw rfl]
  simp only [Bool.false_eq_true, if_false]
  unfold parse_line_line
  rw [trim_ws_nil hw]
  rfl

/-- C10: the dispatch fallback hands every line that starts with none of
the six literal record prefixes to the line-record parser — including
empty and all-whitespace lines — so any file containing a blank (or
all-whitespace) line fails to parse as a whole. -/
theorem claim_C10 :
    (∀ (sf : SymbolFile) (l : List Char),
      ¬ begins (chars "FILE ") l = true → ¬ begins (chars "STACK ") l = true →
      ¬ begins (chars "FUNC ") l = true → ¬ begins (chars "PUBLIC ") l = true →
      ¬ begins (chars "MODULE ") l = true → ¬ begins (chars "INFO ") l = true →
      parseStep sf l = parse_line_line sf l) ∧
    (∀ (sf : SymbolFile) (pre post : List (List Char)) (w : List Char),
      (∀ c ∈ w, isWs c = true) →
      parse_lines sf (pre ++ w :: post) = none) := by
  constructor
  · intro sf l h1 h2 h3 h4 h5 h6
    unfold parseStep
    rw [if_neg h1, if_neg h2, if_neg h3, if_neg h4, if_neg h5, if_neg h6]
  · intro sf pre post w hw
    rw [parse_lines_append]
    cases hp : parse_lines sf pre with
    | none => rfl
    | some sf2 =>
      show parse_lines sf2 (w :: post) = none
      rw [parse_lines, parseStep_ws_none sf2 hw]

/-- Witness for C10: an empty line between two valid records makes the
whole file unparseable. -/
theorem claim_C10_witness :
    parse_lines sfEmpty
      [chars "FILE 1 foo.c", [], chars "FUNC 100 10 0 f"] = none :=
  claim_C10.2 sfEmpty [chars "FILE 1 foo.c"] [chars "FUNC 100 10 0 f"] []
    (by intro c hc; cases hc)

/-- C3 (code bug): the source's own format comment documents
`PUBLIC [<multiple>] <address> <stack_param_size> <name>`, and the
`m`-flag machinery (`tokenize_with_optional_field`) is invoked for it,
but the `is_multiple` test demands `tokens.len() >= 5` — copied from the
FUNC parser — although PUBLIC tokenization yields at most 4 tokens. So
on `PUBLIC m 1000 0 foo` the flag is never recognised, the address
token is the literal `m`, `from_str_radix("m", 16)` fails, and the
parser panics (aborting the parse) instead of registering the
PublicSymbol; a PUBLIC line without `m`, and a FUNC line with `m`,
both succeed. -/
theorem claim_C3 :
    parse_public_line sfEmpty (chars "PUBLIC m 1000 0 foo") = none ∧
    parse_lines sfEmpty [chars "PUBLIC m 1000 0 foo"] = none ∧
    (parse_public_line sfEmpty (chars "PUBLIC 1000 0 foo")).isSome = true ∧
    (parse_func_line sfEmpty (chars "FUNC m 1000 10 0 foo")).isSome = true := by
  refine ⟨by decide, by decide, by decide, by decide⟩

/-! ## Crash-log symbolicator claims -/

theorem parser_ips_append (sf : SymbolFile) (soname : List Char)
    (a b : List (List Char)) :
    parser_ips sf soname (a ++ b) = parser_ips sf soname a ++ parser_ips sf soname b := by
  induction a with
  | nil => rfl
  | cons x xs ih =>
    show parser_ips_line sf soname x ++ parser_ips sf soname (xs ++ b) =
      (parser_ips_line sf soname x ++ parser_ips sf soname xs) ++ parser_ips sf soname b
    rw [ih, List.append_assoc]

/-- C2 (amended): a line the pattern does not match is emitted
unchanged, byte for byte, in place in the output; but a line the
pattern does match whose captured module name differs from the target
module produces no output line at all — the source's `match` has no
else branch there, so the line is dropped rather than passed through. -/
theorem claim_C2 :
    (∀ (sf : SymbolFile) (soname line : List Char), matchIps line = none →
      parser_ips_line sf soname line = [line]) ∧
    (∀ (sf : SymbolFile) (soname : List Char) (pre post : List (List Char)) (line : List Char),
      matchIps line = none →
      parser_ips sf soname (pre ++ line :: post) =
        parser_ips sf soname pre ++ line :: parser_ips sf soname post) ∧
    (∀ (sf : SymbolFile) (soname line : List Char) (cap : IpsCaps),
      matchIps line = some cap → cap.so ≠ soname →
      parser_ips_line sf soname line = []) := by
  refine ⟨?_, ?_, ?_⟩
  · intro sf soname line h
    unfold parser_ips_line
    rw [h]
  · intro sf soname pre post line h
    rw [parser_ips_append]
    show _ ++ (parser_ips_line sf soname line ++ parser_ips sf soname post) = _
    unfold parser_ips_line
    rw [h]
    rfl
  · intro sf soname line cap hm hso
    unfold parser_ips_line
    rw [hm]
    dsimp only
    rw [if_neg hso]

/-- Witness for C2: `Thread 0 Crashed:` does not match the offset
pattern and passes through unchanged between two other lines. -/
theorem claim_C2_witness :
    parser_ips sfEmpty (chars "UnityFramework")
        ([chars "AAA"] ++ chars "Thread 0 Crashed:" :: [chars "BBB"]) =
      parser_ips sfEmpty (chars "UnityFramework") [chars "AAA"] ++
        chars "Thread 0 Crashed:" ::
          parser_ips sfEmpty (chars "UnityFramework") [chars "BBB"] :=
  claim_C2.2.1 sfEmpty (chars "UnityFramework") [chars "AAA"] [chars "BBB"]
    (chars "Thread 0 Crashed:") (by decide)

/-- Counterexample for C2 as stated: this line matches the offset
pattern with module `CoreFoundation`, which differs from the target
`UnityFramework` — the claim demands it be emitted unchanged, but the
symbolicator emits nothing for it. -/
theorem claim_C2_counterexample :
    matchIps (chars "2 CoreFoundation 0x1 0x0 + 123") =
      some { i := chars "2", so := chars "CoreFoundation", mem_address := chars "1",
             base := chars "0", offset := chars "123" } ∧
    parser_ips_line sfEmpty (chars "UnityFramework")
      (chars "2 CoreFoundation 0x1 0x0 + 123") = [] ∧
    parser_ips_line sfEmpty (chars "UnityFramework")
        (chars "2 CoreFoundation 0x1 0x0 + 123") ≠
      [chars "2 CoreFoundation 0x1 0x0 + 123"] := by
  refine ⟨by decide, by decide, by decide⟩

/-- C6 (amended): for a matching line whose module equals the target,
when the captured offset parses as a `u64` the line is emitted with
every occurrence of the offset digit-string replaced by the resolved
description (Rust `str::replace` replaces all occurrences); the
description is `<function> <file or ??>:<line or ?>` on a hit and the
`Not found symbol for address(<hex>` placeholder on a miss. When the
offset fails to parse (empty capture, or a value past `u64::MAX`), the
line produces no output at all. -/
theorem claim_C6 (sf : SymbolFile) (soname line : List Char) (cap : IpsCaps)
    (hm : matchIps line = some cap) (hso : cap.so = soname) :
    (∀ e, parseU64 10 cap.offset = some e →
      parser_ips_line sf soname line =
        [replaceAll line cap.offset (get_symed_line sf e)] ∧
      (∀ sym, lookup_address sf e = some sym →
        get_symed_line sf e =
          sym.function_name ++ chars " " ++
            (if sym.source_file_name.length ≠ 0 then sym.source_file_name else chars "??") ++
            chars ":" ++
            (if sym.source_file_number ≠ -1 then intDec sym.source_file_number else chars "?")) ∧
      (lookup_address sf e = none →
        get_symed_line sf e =
          chars "Not found symbol for address(" ++ chars "0x" ++ natToHex e)) ∧
    (parseU64 10 cap.offset = none → parser_ips_line sf soname line = []) := by
  constructor
  · intro e he
    refine ⟨?_, ?_, ?_⟩
    · unfold parser_ips_line
      rw [hm]
      dsimp only
      rw [if_pos hso, he]
    · intro sym hs
      unfold get_symed_line
      rw [hs]
    · intro hn
      unfold get_symed_line
      rw [hn]
  · intro he
    unfold parser_ips_line
    rw [hm]
    dsimp only
    rw [if_pos hso, he]

/-- Witness for C6: the offset 26 of a matching UnityFramework line is
replaced by the description resolved for address 26. -/
theorem claim_C6_witness :
    parser_ips_line sfEmpty (chars "UnityFramework")
        (chars "2 UnityFramework 0x1a 0x0 + 26") =
      [replaceAll (chars "2 UnityFramework 0x1a 0x0 + 26") (chars "26")
        (get_symed_line sfEmpty 26)] :=
  ((claim_C6 sfEmpty (chars "UnityFramework")
      (chars "2 UnityFramework 0x1a 0x0 + 26")
      { i := chars "2", so := chars "UnityFramework", mem_address := chars "1a",
        base := chars "0", offset := chars "26" }
      (by decide) (by decide)).1 26 (by decide)).1

/-- Counterexample for C6 as stated: the pattern's offset group is
`[0-9]*`, so `2 UnityFramework 0x1a 0x0 + ` matches with an empty
offset capture and the target module; the claim demands an output line
with a substitution, but `"".parse::<u64>()` fails and nothing is
emitted. Moreover the substitution is a replace-all: with offset `1`,
the leading thread index `1` is rewritten too. -/
theorem claim_C6_counterexample :
    matchIps (chars "2 UnityFramework 0x1a 0x0 + ") =
      some { i := chars "2", so := chars "UnityFramework", mem_address := chars "1a",
             base := chars "0", offset := [] } ∧
    parser_ips_line sfEmpty (chars "UnityFramework")
      (chars "2 UnityFramework 0x1a 0x0 + ") = [] ∧
    parser_ips_line sfEmpty (chars "UnityFramework")
        (chars "1 UnityFramework 0xa 0x0 + 1") =
      [chars "Not found symbol for address(0x1 UnityFramework 0xa 0x0 + Not found symbol for address(0x1"] := by
  refine ⟨by decide, by decide, by decide⟩

/-! ## Tokenizer lemmas -/

theorem begins_eq_append {p s : List Char} (h : begins p s = true) :
    s = p ++ s.drop p.length := by
  induction p generalizing s with
  | nil => simp
  | cons a p ih =>
    cases s with
    | nil => simp [begins] at h
    | cons b t =>
      rw [begins, Bool.and_eq_true] at h
      obtain ⟨h1, h2⟩ := h
      obtain rfl : a = b := beq_iff_eq.1 h1
      have := ih h2
      simpa using this

theorem splitOnce_spec (sep s : List Char) :
    s = (splitOnce sep s).1 ++ sep ++ (splitOnce sep s).2 ∨
    ((splitOnce sep s).1 = s ∧ (splitOnce sep s).2 = []) := by
  induction s with
  | nil => right; exact ⟨rfl, rfl⟩
  | cons a rest ih =>
    rw [splitOnce]
    by_cases h0 : sep = []
    · rw [if_pos h0]
      left
      simp [h0]
    · rw [if_neg h0]
      by_cases hb : begins sep (a :: rest) = true
      · rw [if_pos hb]
        left
        dsimp only
        simpa using begins_eq_append hb
      · rw [if_neg hb]
        dsimp only
        rcases ih with h | ⟨h1, h2⟩
        · left
          dsimp only
          conv_lhs => rw [h]
          simp
        · right
          constructor
          · dsimp only; rw [h1]
          · exact h2

theorem splitOnce_not_mem {c : Char} {f : List Char} (h : c ∉ f) :
    splitOnce [c] f = (f, []) := by
  induction f with
  | nil => rfl
  | cons a rest ih =>
    rw [splitOnce]
    rw [if_neg (by simp : ¬ ([c] : List Char) = [])]
    have hb : begins [c] (a :: rest) = false := by
      have hne : a ≠ c := fun he => h (he ▸ List.mem_cons_self _ _)
      simp [begins]
      exact fun he => hne he.symm
    rw [if_neg (by simp [hb])]
    have := ih (fun hm => h (List.mem_cons_of_mem _ hm))
    simp [this]

theorem splitOnce_boundary {c : Char} {f : List Char} (rest : List Char) (h : c ∉ f) :
    splitOnce [c] (f ++ c :: rest) = (f, rest) := by
  induction f with
  | nil =>
    rw [List.nil_append, splitOnce]
    rw [if_neg (by simp : ¬ ([c] : List Char) = [])]
    rw [if_pos (by simp [begins])]
    rfl
  | cons a f2 ih =>
    rw [List.cons_append, splitOnce]
    rw [if_neg (by simp : ¬ ([c] : List Char) = [])]
    have hb : begins [c] (a :: (f2 ++ c :: rest)) = false := by
      have hne : a ≠ c := fun he => h (he ▸ List.mem_cons_self _ _)
      simp [begins]
      exact fun he => hne he.symm
    rw [if_neg (by simp [hb])]
    have := ih (fun hm => h (List.mem_cons_of_mem _ hm))
    simp [this]

theorem splitOnce_joinSep {c : Char} {g : List Char} (gs : List (List Char)) (h : c ∉ g) :
    splitOnce [c] (joinSep [c] (g :: gs)) = (g, joinSep [c] gs) := by
  cases gs with
  | nil =>
    show splitOnce [c] g = (g, joinSep [c] [])
    rw [splitOnce_not_mem h]
    rfl
  | cons g2 gs2 =>
    have hj : joinSep [c] (g :: g2 :: gs2) = g ++ c :: joinSep [c] (g2 :: gs2) := by
      show (g ++ [c]) ++ joinSep [c] (g2 :: gs2) = _
      simp
    rw [hj, splitOnce_boundary _ h]

theorem tokenizeAux_nil_nil (sep : List Char) (r : Nat) (acc : List (List Char)) :
    tokenizeAux sep r [] [] acc = acc := by
  cases r <;> simp [tokenizeAux]

theorem tokenizeAux_length (sep : List Char) :
    ∀ (r : Nat) (partA txt : List Char) (acc : List (List Char)),
      (tokenizeAux sep r partA txt acc).length ≤ acc.length + r + 1 := by
  intro r
  induction r with
  | zero =>
    intro partA txt acc
    rw [tokenizeAux]
    by_cases h : txt = [] <;> simp [h]
  | succ r ih =>
    intro partA txt acc
    rw [tokenizeAux]
    by_cases h1 : partA = []
    · rw [if_pos h1]; omega
    · rw [if_neg h1]
      by_cases h2 : r = 0
      · subst h2
        rw [if_pos rfl]
        by_cases h3 : txt = [] <;> simp [h3]
      · rw [if_neg h2]
        dsimp only
        calc (tokenizeAux sep r _ _ (acc ++ [partA])).length
            ≤ (acc ++ [partA]).length + r + 1 := ih _ _ _
          _ = acc.length + (r + 1) + 1 := by simp; omega

theorem tokenizeAux_txt_nil_length (sep : List Char) :
    ∀ (r : Nat) (partA : List Char) (acc : List (List Char)),
      (tokenizeAux sep r partA [] acc).length ≤ acc.length + 1 := by
  intro r
  cases r with
  | zero =>
    intro partA acc
    rw [tokenizeAux]
    simp
  | succ r =>
    intro partA acc
    rw [tokenizeAux]
    by_cases h1 : partA = []
    · rw [if_pos h1]; simp
    · rw [if_neg h1]
      by_cases h2 : r = 0
      · subst h2
        rw [if_pos rfl, if_pos rfl]
        simp
      · rw [if_neg h2]
        dsimp only
        show (tokenizeAux sep r ([] : List Char) ([] : List Char) (acc ++ [partA])).length ≤ _
        rw [tokenizeAux_nil_nil]
        simp

/-- When the loop produces a full result (one token per unit of
`remaining`, plus the trailing-text token), the tokens reconstruct the
input: every split on the way found the separator. -/
theorem tokenizeAux_full (sep : List Char) :
    ∀ (r : Nat) (partA txt : List Char) (acc : List (List Char)),
      (tokenizeAux sep (r + 1) partA txt acc).length = acc.length + r + 2 →
      ∃ ts, tokenizeAux sep (r + 1) partA txt acc = acc ++ ts ∧ ts.length = r + 2 ∧
        joinSep sep ts = partA ++ sep ++ txt := by
  intro r
  induction r with
  | zero =>
    intro partA txt acc hlen
    rw [tokenizeAux] at hlen ⊢
    by_cases h1 : partA = []
    · rw [if_pos h1] at hlen; omega
    · rw [if_neg h1] at hlen ⊢
      rw [if_pos rfl] at hlen ⊢
      by_cases h2 : txt = []
      · rw [if_pos h2] at hlen; simp at hlen
      · rw [if_neg h2] at hlen ⊢
        exact ⟨[partA, txt], rfl, rfl, rfl⟩
  | succ r ih =>
    intro partA txt acc hlen
    rw [tokenizeAux] at hlen ⊢
    by_cases h1 : partA = []
    · rw [if_pos h1] at hlen; omega
    · rw [if_neg h1] at hlen ⊢
      rw [if_neg (Nat.succ_ne_zero r)] at hlen ⊢
      dsimp only at hlen ⊢
      obtain ⟨ts2, hts1, hts2, hts3⟩ :=
        ih (splitOnce sep txt).1 (splitOnce sep txt).2 (acc ++ [partA]) (by simp; omega)
      refine ⟨partA :: ts2, by simp [hts1], by simp [hts2], ?_⟩
      have hne : ts2 ≠ [] := by
        intro hn; rw [hn] at hts2; simp at hts2
      have hjoin : joinSep sep (partA :: ts2) = partA ++ sep ++ joinSep sep ts2 := by
        cases ts2 with
        | nil => exact absurd rfl hne
        | cons x xs => rfl
      rw [hjoin, hts3]
      rcases splitOnce_spec sep txt with hs | ⟨hs1, hs2⟩
      · rw [← hs]
      · exfalso
        have hb := tokenizeAux_txt_nil_length sep (r + 1) (splitOnce sep txt).1 (acc ++ [partA])
        rw [← hs2, hts1] at hb
        simp at hb
        omega

/-- Part (a) of the tokenizer contract: at most `N` tokens. -/
theorem tokenize_len_le (line sep : List Char) (N : Nat) (hN : 1 ≤ N) :
    (tokenize line sep N).length ≤ N := by
  unfold tokenize
  show (tokenizeAux sep (N - 1) (splitOnce sep line).1 (splitOnce sep line).2 []).length ≤ N
  have := tokenizeAux_length sep (N - 1) (splitOnce sep line).1 (splitOnce sep line).2 []
  simp at this
  omega

/-- Part (c): the empty input yields no tokens. -/
theorem tokenize_nil (sep : List Char) (N : Nat) : tokenize [] sep N = [] := by
  unfold tokenize
  show tokenizeAux sep (N - 1) ([] : List Char) ([] : List Char) [] = []
  exact tokenizeAux_nil_nil sep (N - 1) []

/-- Part (b): a full result (exactly `N` tokens, `N ≥ 2`) reconstructs
the input when re-joined with the separator — the final token kept all
remaining text, embedded separators included. -/
theorem tokenize_full (line sep : List Char) (N : Nat) (hN : 2 ≤ N)
    (hlen : (tokenize line sep N).length = N) :
    joinSep sep (tokenize line sep N) = line := by
  obtain ⟨r, rfl⟩ : ∃ r, N = r + 2 := ⟨N - 2, by omega⟩
  unfold tokenize at hlen ⊢
  have hr : r + 2 - 1 = r + 1 := by omega
  rw [hr] at hlen ⊢
  obtain ⟨ts, hts1, hts2, hts3⟩ :=
    tokenizeAux_full sep r (splitOnce sep line).1 (splitOnce sep line).2 []
      (by simpa using hlen)
  rw [hts1] at hlen ⊢
  rw [List.nil_append] at hlen ⊢
  rw [hts3]
  rcases splitOnce_spec sep line with hs | ⟨hs1, hs2⟩
  · exact hs.symm
  · exfalso
    have hb := tokenizeAux_txt_nil_length sep (r + 1) (splitOnce sep line).1 []
    rw [hs2] at hts1
    rw [hts1] at hb
    simp at hb
    omega

theorem joinSep_ne_nil {c : Char} {fs : List (List Char)} (hne : fs ≠ [])
    (hall : ∀ g ∈ fs, g ≠ []) : joinSep [c] fs ≠ [] := by
  cases fs with
  | nil => exact absurd rfl hne
  | cons g gs =>
    cases gs with
    | nil => exact hall g (List.mem_cons_self _ _)
    | cons g2 gs2 =>
      show (g ++ [c]) ++ joinSep [c] (g2 :: gs2) ≠ []
      simp

/-- Feeding the loop a sequence of nonempty separator-free fields, with
enough `remaining` budget, returns exactly those fields. -/
theorem tokenizeAux_fields (c : Char) :
    ∀ (fs : List (List Char)) (f : List Char) (r : Nat) (acc : List (List Char)),
      f ≠ [] → c ∉ f →
      (∀ g ∈ fs, g ≠ [] ∧ c ∉ g) →
      fs.length ≤ r + 1 →
      tokenizeAux [c] (r + 1) f (joinSep [c] fs) acc = acc ++ f :: fs := by
  intro fs
  induction fs with
  | nil =>
    intro f r acc hf _ _ _
    rw [tokenizeAux, if_neg hf]
    cases r with
    | zero =>
      rw [if_pos rfl, if_pos (show joinSep [c] ([] : List (List Char)) = [] from rfl)]
    | succ r2 =>
      rw [if_neg (Nat.succ_ne_zero r2)]
      dsimp only
      show tokenizeAux [c] (r2 + 1) ([] : List Char) ([] : List Char) (acc ++ [f]) = acc ++ [f]
      exact tokenizeAux_nil_nil [c] (r2 + 1) (acc ++ [f])
  | cons g gs ih =>
    intro f r acc hf hcf hall hlen
    rw [tokenizeAux, if_neg hf]
    cases r with
    | zero =>
      obtain rfl : gs = [] := by
        cases gs with
        | nil => rfl
        | cons g2 gs2 => simp at hlen
      rw [if_pos rfl]
      rw [if_neg (show joinSep [c] [g] ≠ [] from (hall g (List.mem_cons_self _ _)).1)]
      rfl
    | succ r2 =>
      rw [if_neg (Nat.succ_ne_zero r2)]
      dsimp only
      rw [splitOnce_joinSep gs (hall g (List.mem_cons_self _ _)).2]
      dsimp only
      rw [ih g r2 (acc ++ [f]) (hall g (List.mem_cons_self _ _)).1
        (hall g (List.mem_cons_self _ _)).2
        (fun g2 hg2 => hall g2 (List.mem_cons_of_mem _ hg2))
        (by simpa using hlen)]
      simp

/-- Part (d), single-character separator: an input that is exactly
`fields.length ≤ N` nonempty separator-free fields joined by the
separator tokenizes to exactly those fields (`N ≥ 2`). -/
theorem tokenize_fields (c : Char) (f : List Char) (fs : List (List Char)) (N : Nat)
    (hN : 2 ≤ N) (hf : f ≠ []) (hcf : c ∉ f)
    (hall : ∀ g ∈ fs, g ≠ [] ∧ c ∉ g)
    (hlen : fs.length + 1 ≤ N) :
    tokenize (joinSep [c] (f :: fs)) [c] N = f :: fs := by
  obtain ⟨r, rfl⟩ : ∃ r, N = r + 2 := ⟨N - 2, by omega⟩
  unfold tokenize
  rw [splitOnce_joinSep fs hcf]
  show tokenizeAux [c] (r + 2 - 1) f (joinSep [c] fs) [] = _
  have hr : r + 2 - 1 = r + 1 := by omega
  rw [hr]
  simpa using tokenizeAux_fields c fs f r [] hf hcf hall (by omega)

/-- With fewer `remaining` than fields, the loop truncates: the first
`r` fields come out alone and the last token keeps the whole joined
remainder. -/
theorem tokenizeAux_trunc (c : Char) :
    ∀ (r : Nat) (fs : List (List Char)) (f : List Char) (acc : List (List Char)),
      f ≠ [] → c ∉ f →
      (∀ g ∈ fs, g ≠ [] ∧ c ∉ g) →
      r + 1 ≤ fs.length →
      tokenizeAux [c] (r + 1) f (joinSep [c] fs) acc =
        acc ++ f :: (fs.take r ++ [joinSep [c] (fs.drop r)]) := by
  intro r
  induction r with
  | zero =>
    intro fs f acc hf hcf hall hlen
    rw [tokenizeAux, if_neg hf, if_pos rfl]
    have hne : joinSep [c] fs ≠ [] :=
      joinSep_ne_nil (by intro h; rw [h] at hlen; simp at hlen)
        (fun g hg => (hall g hg).1)
    rw [if_neg hne]
    simp
  | succ r ih =>
    intro fs f acc hf hcf hall hlen
    cases fs with
    | nil => simp at hlen
    | cons g gs =>
      rw [tokenizeAux, if_neg hf, if_neg (Nat.succ_ne_zero r)]
      dsimp only
      rw [splitOnce_joinSep gs (hall g (List.mem_cons_self _ _)).2]
      dsimp only
      rw [ih gs g (acc ++ [f]) (hall g (List.mem_cons_self _ _)).1
        (hall g (List.mem_cons_self _ _)).2
        (fun g2 hg2 => hall g2 (List.mem_cons_of_mem _ hg2))
        (by simpa using hlen)]
      simp

/-- Truncating top-level form: `M ≥ 2` tokens out of at least `M`
fields. -/
theorem tokenize_trunc (c : Char) (f : List Char) (fs : List (List Char)) (M : Nat)
    (hM : 2 ≤ M) (hf : f ≠ []) (hcf : c ∉ f)
    (hall : ∀ g ∈ fs, g ≠ [] ∧ c ∉ g)
    (hlen : M ≤ fs.length + 1) :
    tokenize (joinSep [c] (f :: fs)) [c] M =
      f :: (fs.take (M - 2) ++ [joinSep [c] (fs.drop (M - 2))]) := by
  obtain ⟨r, rfl⟩ : ∃ r, M = r + 2 := ⟨M - 2, by omega⟩
  unfold tokenize
  rw [splitOnce_joinSep fs hcf]
  show tokenizeAux [c] (r + 2 - 1) f (joinSep [c] fs) [] = _
  have hr : r + 2 - 1 = r + 1 := by omega
  rw [hr]
  have hr2 : r + 2 - 2 = r := by omega
  rw [hr2]
  simpa using tokenizeAux_trunc c r fs f [] hf hcf hall (by omega)

/-- When the first token differs from the flag literal, the
optional-field variant returns the plain tokenization unchanged. -/
theorem twof_noflag (line flag sep : List Char) (N : Nat)
    (h : (tokenize line sep (N - 1)).headD [] ≠ flag) :
    tokenize_with_optional_field line flag sep N = tokenize line sep (N - 1) := by
  unfold tokenize_with_optional_field
  rw [if_neg h]

/-- Part (e), positive direction: on an input of at least `N` nonempty
separator-free fields whose first field is the flag literal, the
optional-field variant re-splits the merged last token and returns
exactly one token more than the plain `N - 1`-bounded tokenization —
the same tokens a plain `N`-bounded tokenization would give. -/
theorem twof_expand (c : Char) (flag : List Char) (fs : List (List Char)) (N : Nat)
    (hN : 3 ≤ N) (hflag : flag ≠ []) (hcflag : c ∉ flag)
    (hall : ∀ g ∈ fs, g ≠ [] ∧ c ∉ g)
    (hlen : N ≤ fs.length + 1) :
    tokenize_with_optional_field (joinSep [c] (flag :: fs)) flag [c] N =
      (flag :: fs).take (N - 1) ++ [joinSep [c] ((flag :: fs).drop (N - 1))] ∧
    (tokenize_with_optional_field (joinSep [c] (flag :: fs)) flag [c] N).length =
      (tokenize (joinSep [c] (flag :: fs)) [c] (N - 1)).length + 1 := by
  have hM2 : 2 ≤ N - 1 := by omega
  have hMle : N - 1 ≤ fs.length + 1 := by omega
  have htok := tokenize_trunc c flag fs (N - 1) hM2 hflag hcflag hall hMle
  set n3 := N - 1 - 2 with hn3
  have hdlen : 2 ≤ (fs.drop n3).length := by
    rw [List.length_drop]
    omega
  obtain ⟨g1, rest, hdrop⟩ : ∃ g1 rest, fs.drop n3 = g1 :: rest := by
    cases hd : fs.drop n3 with
    | nil => rw [hd] at hdlen; simp at hdlen
    | cons x xs => exact ⟨x, xs, rfl⟩
  have hrest : rest ≠ [] := by
    intro h
    rw [hdrop, h] at hdlen
    simp at hdlen
  have hg1mem : g1 ∈ fs := List.mem_of_mem_drop (hdrop ▸ List.mem_cons_self g1 rest)
  have hrestmem : ∀ g ∈ rest, g ≠ [] ∧ c ∉ g := fun g hg =>
    hall g (List.mem_of_mem_drop (hdrop ▸ List.mem_cons_of_mem _ hg))
  have hsub : tokenize (joinSep [c] (g1 :: rest)) [c] 2 = [g1, joinSep [c] rest] := by
    have hr1 : 2 ≤ rest.length + 1 := by
      cases rest with
      | nil => exact absurd rfl hrest
      | cons x xs => simp
    simpa using tokenize_trunc c g1 rest 2 le_rfl (hall g1 hg1mem).1 (hall g1 hg1mem).2
      hrestmem hr1
  have hcond : List.headD (flag :: (fs.take n3 ++ [joinSep [c] (fs.drop n3)]))
      ([] : List Char) = flag := rfl
  have hshape : flag :: (fs.take n3 ++ [joinSep [c] (fs.drop n3)]) =
      (flag :: fs.take n3) ++ [joinSep [c] (fs.drop n3)] := by simp
  have heq : tokenize_with_optional_field (joinSep [c] (flag :: fs)) flag [c] N =
      (flag :: fs.take n3) ++ [g1, joinSep [c] rest] := by
    unfold tokenize_with_optional_field
    rw [htok, if_pos hcond, hshape, List.getLastD_concat, List.dropLast_concat]
    rw [hdrop]
    dsimp only
    rw [hsub]
  constructor
  · rw [heq]
    have htake : (flag :: fs).take (N - 1) = flag :: (fs.take n3 ++ [g1]) := by
      have h1 : N - 1 = (n3 + 1) + 1 := by omega
      rw [h1, List.take_succ_cons, List.take_add, hdrop]
      rfl
    have hdrop2 : (flag :: fs).drop (N - 1) = rest := by
      have h1 : N - 1 = (n3 + 1) + 1 := by omega
      rw [h1, List.drop_succ_cons]
      have hdd : List.drop (n3 + 1) fs = List.drop 1 (List.drop n3 fs) := by
        rw [List.drop_drop, Nat.add_comm]
      rw [hdd, hdrop]
      rfl
    rw [htake, hdrop2]
    simp
  · rw [heq, htok]
    simp

/-- C7 (amended): (a) for every input, separator and `N ≥ 1`,
`tokenize` produces at most `N` tokens; (b) for `N ≥ 2`, whenever it
produces a full `N` tokens, re-joining them with the separator
reconstructs the input exactly — the final token absorbed all remaining
text un-split, embedded separators included; (c) empty input yields
zero tokens; (d) for a single-character delimiter, an input of
`k ≤ N` nonempty delimiter-free fields yields exactly those `k` tokens
(this needs `N ≥ 2`: with `N = 1` the loop never runs and the first
field is discarded; and it needs a single-character delimiter: a
multi-character delimiter can match across a field/delimiter boundary);
(e) the optional-flag variant yields one extra field when the first
token equals the flag literal and the last token still contains the
delimiter (guaranteed when at least `N` fields are present), and
returns the plain tokenization when the first token differs from the
flag. -/
theorem claim_C7 :
    (∀ (line sep : List Char) (N : Nat), 1 ≤ N → (tokenize line sep N).length ≤ N) ∧
    (∀ (line sep : List Char) (N : Nat), 2 ≤ N → (tokenize line sep N).length = N →
      joinSep sep (tokenize line sep N) = line) ∧
    (∀ (sep : List Char) (N : Nat), tokenize [] sep N = []) ∧
    (∀ (c : Char) (f : List Char) (fs : List (List Char)) (N : Nat),
      2 ≤ N → f ≠ [] → c ∉ f → (∀ g ∈ fs, g ≠ [] ∧ c ∉ g) → fs.length + 1 ≤ N →
      tokenize (joinSep [c] (f :: fs)) [c] N = f :: fs) ∧
    (∀ (c : Char) (flag : List Char) (fs : List (List Char)) (N : Nat),
      3 ≤ N → flag ≠ [] → c ∉ flag → (∀ g ∈ fs, g ≠ [] ∧ c ∉ g) → N ≤ fs.length + 1 →
      (tokenize_with_optional_field (joinSep [c] (flag :: fs)) flag [c] N).length =
        (tokenize (joinSep [c] (flag :: fs)) [c] (N - 1)).length + 1) ∧
    (∀ (line flag sep : List Char) (N : Nat),
      (tokenize line sep (N - 1)).headD [] ≠ flag →
      tokenize_with_optional_field line flag sep N = tokenize line sep (N - 1)) :=
  ⟨tokenize_len_le, tokenize_full, tokenize_nil,
   fun c f fs N h1 h2 h3 h4 h5 => tokenize_fields c f fs N h1 h2 h3 h4 h5,
   fun c flag fs N h1 h2 h3 h4 h5 => (twof_expand c flag fs N h1 h2 h3 h4 h5).2,
   twof_noflag⟩

/-- Witness for C7 at part (d): three space-free fields, `N = 4`. -/
theorem claim_C7_witness :
    tokenize (joinSep [' '] [chars "aa", chars "bb", chars "cc"]) [' '] 4 =
      [chars "aa", chars "bb", chars "cc"] :=
  claim_C7.2.2.2.1 ' ' (chars "aa") [chars "bb", chars "cc"] 4
    (by decide) (by decide) (by decide) (by decide) (by decide)

/-- Counterexample for C7 as stated. With `N = 1` the single-field
input `ab` yields zero tokens, not one (the loop body never runs and
`part_a` is discarded). With the two-character delimiter `aa`, the
two-field input `xa`,`b` (neither containing `aa`) tokenizes to
`x`,`ab`: the delimiter matches across the field boundary. And the
optional-flag variant on `m x` leaves the token count unchanged even
though the first token equals the flag, because the last token contains
no delimiter to re-split. -/
theorem claim_C7_counterexample :
    tokenize (chars "ab") (chars " ") 1 = [] ∧
    tokenize (chars "xaaab") (chars "aa") 3 = [chars "x", chars "ab"] ∧
    tokenize (chars "xaaab") (chars "aa") 3 ≠ [chars "xa", chars "b"] ∧
    tokenize_with_optional_field (chars "m x") (chars "m") (chars " ") 4 =
      [chars "m", chars "x"] ∧
    tokenize (chars "m x") (chars " ") 3 = [chars "m", chars "x"] := by
  refine ⟨by decide, by decide, by decide, by decide, by decide⟩

end Breakpad
